import Mathlib

/-!
Verification of the live-telemetry ingestion pipeline of `src/main.py`
(a ROS2 topic viewer).  The core under study is:

* `parse_ros2_generic_output` — the per-line indentation-driven parser
  (lines 70-126 of `src/main.py`);
* `flatten_to_nested_dict` — the dotted-path-to-tree builder
  (lines 129-144);
* the framing / coalescing logic of `ros2_topic_generator`
  (lines 239-285): frame-boundary handling and the "latest record wins"
  drain of the pending-message list.

Strings are embedded as `List Char` so that the Python string
operations used by the source (`strip`, `lstrip`, `split('.')`,
`lower`, the `re` match, `int()` / `float()` literal acceptance) become
structurally recursive Lean functions that can be reasoned about by
induction.  Python's whitespace and digit classes are modelled on their
ASCII fragment, which is the fragment the program's input (ASCII text
from `ros2 topic echo`) and all the claims exercise.
-/

/-- A Python string, embedded as its list of characters. -/
abbrev PyStr := List Char

/-- The ASCII whitespace characters recognised by Python's `str.strip` /
`str.lstrip` and by the regex class `\s`. -/
def isPySpace (c : Char) : Bool :=
  c = ' ' || c = '\t' || c = '\n' || c = '\r' || c = '\x0b' || c = '\x0c'

/-- Python `str.lstrip()`. -/
def pyLstrip (s : PyStr) : PyStr := s.dropWhile isPySpace

/-- Python `str.rstrip()`. -/
def pyRstrip (s : PyStr) : PyStr := (s.reverse.dropWhile isPySpace).reverse

/-- Python `str.strip()`. -/
def pyStrip (s : PyStr) : PyStr := pyRstrip (pyLstrip s)

/-- Line 85 of the source:
`indent = len(output_line) - len(output_line.lstrip())`. -/
def pyIndent (s : PyStr) : Nat := s.length - (pyLstrip s).length

/-- First character class of the regex `[a-zA-Z_]` (line 89). -/
def isIdentStart (c : Char) : Bool := c.isAlpha || c = '_'

/-- Continuation character class of the regex `[a-zA-Z0-9_]` (line 89). -/
def isIdentChar (c : Char) : Bool := c.isAlpha || c.isDigit || c = '_'

/-- A whole string is an identifier of the grammar `[a-zA-Z_][a-zA-Z0-9_]*`. -/
def isIdent : PyStr → Bool
  | [] => false
  | c :: rest => isIdentStart c && rest.all isIdentChar

/-- The anchored regex match of line 89,
`re.match(r'^([a-zA-Z_][a-zA-Z0-9_]*)\s*:\s*(.*)$', line)`, returning
`(group 1, group 2)` on success.  The identifier star is greedy; since an
identifier character can match neither `\s` nor `:`, backtracking can
never produce a match the greedy scan misses, so the greedy scan is an
exact model of the regex. -/
def matchKeyValue (line : PyStr) : Option (PyStr × PyStr) :=
  match line with
  | [] => none
  | c :: rest =>
    if isIdentStart c then
      let key := c :: rest.takeWhile isIdentChar
      let afterKey := rest.dropWhile isIdentChar
      match afterKey.dropWhile isPySpace with
      | ':' :: tail => some (key, tail.dropWhile isPySpace)
      | _ => none
    else none

/-- Tail of a Python integer-literal digit run: after an initial digit,
digits continue, with a single underscore allowed only between digits. -/
def digitsRest : PyStr → Bool
  | [] => true
  | '_' :: c :: rest => c.isDigit && digitsRest rest
  | '_' :: [] => false
  | c :: rest => c.isDigit && digitsRest rest

/-- A non-empty run of decimal digits with Python's underscore rule
(no leading, trailing or doubled underscore). -/
def digitsOk : PyStr → Bool
  | [] => false
  | c :: rest => c.isDigit && digitsRest rest

/-- Numeric value of a digit run, ignoring underscores. -/
def digitsVal (s : PyStr) : Nat :=
  (s.filter (fun c => c ≠ '_')).foldl (fun a c => a * 10 + (c.toNat - '0'.toNat)) 0

/-- Python `int(token)` on a string argument: surrounding whitespace is
ignored, an optional sign precedes a digit run; `None` models the
`ValueError`.  (Python also accepts non-ASCII Unicode digits; the
embedding covers the ASCII forms, the only ones arising here.) -/
def pyIntParse (s : PyStr) : Option Int :=
  let t := pyStrip s
  match t with
  | '+' :: rest => if digitsOk rest then some (digitsVal rest) else none
  | '-' :: rest => if digitsOk rest then some (-(digitsVal rest : Int)) else none
  | _ => if digitsOk t then some (digitsVal t) else none

/-- Split a character list at the first character satisfying `p`,
dropping that character. -/
def splitFirst (p : Char → Bool) : PyStr → PyStr × Option PyStr
  | [] => ([], none)
  | c :: rest =>
    if p c then ([], some rest)
    else
      let r := splitFirst p rest
      (c :: r.1, r.2)

/-- Mantissa of a Python float literal: digits, optionally with one dot,
with at least one digit on some side of the dot. -/
def mantissaOk (m : PyStr) : Bool :=
  match splitFirst (fun c => c = '.') m with
  | (w, none) => digitsOk w
  | (w, some f) =>
    !(f.contains '.') && (w.isEmpty || digitsOk w) && (f.isEmpty || digitsOk f)
      && !(w.isEmpty && f.isEmpty)

/-- Exponent part of a Python float literal: optional sign, then digits. -/
def expOk (e : PyStr) : Bool :=
  match e with
  | '+' :: r => digitsOk r
  | '-' :: r => digitsOk r
  | _ => digitsOk e

/-- Numeric (non-special) body of a Python float literal. -/
def floatNumericOk (t : PyStr) : Bool :=
  match splitFirst (fun c => c = 'e' || c = 'E') t with
  | (m, none) => mantissaOk m
  | (m, some e) => mantissaOk m && expOk e

/-- The special float literals `inf`, `infinity`, `nan`, case-insensitive. -/
def floatSpecial (t : PyStr) : Bool :=
  let l := t.map Char.toLower
  l = ('i' :: 'n' :: 'f' :: []) ||
  l = ('i' :: 'n' :: 'f' :: 'i' :: 'n' :: 'i' :: 't' :: 'y' :: []) ||
  l = ('n' :: 'a' :: 'n' :: [])

/-- Whether Python `float(token)` succeeds on the string `token`
(whitespace-stripped, optional sign, then a numeric literal or one of
the special words). -/
def pyFloatParses (s : PyStr) : Bool :=
  let t := pyStrip s
  let body :=
    match t with
    | '+' :: r => r
    | '-' :: r => r
    | _ => t
  floatSpecial body || floatNumericOk body

/-- A parsed scalar, the `ScalarValue` of the spec: the result of the
coercion at lines 115-123 of the source.  The `float` constructor keeps
the accepted token; no claim depends on the numeric value of a float
beyond its literal, so IEEE-754 evaluation is not modelled. -/
inductive ScalarValue where
  | int : Int → ScalarValue
  | float : PyStr → ScalarValue
  | str : PyStr → ScalarValue
deriving DecidableEq

/-- Line 117 of the source:
`'.' not in value and 'e' not in value.lower()`, negated. -/
def hasDotOrE (v : PyStr) : Bool :=
  v.contains '.' || (v.map Char.toLower).contains 'e'

/-- The scalar coercion of lines 115-123 of the source:
```
try:
    if '.' not in value and 'e' not in value.lower():
        parsed_value = int(value)
    else:
        parsed_value = float(value)
except ValueError:
    parsed_value = value
```
Note that when the token has no dot and no `e`, a failing `int` parse
raises straight into the `except` arm: `float` is never attempted on
that branch. -/
def coerce (value : PyStr) : ScalarValue :=
  if hasDotOrE value = false then
    match pyIntParse value with
    | some n => .int n
    | none => .str value
  else if pyFloatParses value then .float value
  else .str value

/-- One frame of the parser's indent stack: the dict
`{'indent': ..., 'path': ...}` pushed at line 112 of the source. -/
structure Frame where
  indent : Nat
  path : PyStr
deriving DecidableEq

/-- The `data_buffer` dict: dotted path to scalar, in insertion order. -/
abbrev FlatRecord := List (PyStr × ScalarValue)

/-- The `parser_state['indent_stack']` list.  The head of the Lean list
is the Python list's last element (the top of the stack), so Python's
`append` / `pop()` become `cons` / `tail`. -/
abbrev IndentStack := List Frame

/-- Python dict assignment `d[k] = v`: replace in place if the key is
present, append otherwise. -/
def assocSet {β : Type} (d : List (PyStr × β)) (k : PyStr) (v : β) :
    List (PyStr × β) :=
  match d with
  | [] => [(k, v)]
  | (k', v') :: rest =>
    if k' = k then (k', v) :: rest else (k', v') :: assocSet rest k v

/-- Python dict lookup `d[k]` / `k in d`. -/
def assocLookup {β : Type} (d : List (PyStr × β)) (k : PyStr) : Option β :=
  match d with
  | [] => none
  | (k', v') :: rest => if k' = k then some v' else assocLookup rest k

/-- The boundary token `---` (line 81 / line 240 of the source). -/
def threeDashes : PyStr := '-' :: '-' :: '-' :: []

/-- `parse_ros2_generic_output(output_line, data_buffer, parser_state)`,
lines 70-126 of the source, with the mutation of the two dict arguments
returned as a pair.  The lazy creation of `parser_state['indent_stack']`
is modelled by the stack starting out as the empty list. -/
def parse_ros2_generic_output (output_line : PyStr) (data_buffer : FlatRecord)
    (stack : IndentStack) : FlatRecord × IndentStack :=
  if output_line = [] ∨ pyStrip output_line = threeDashes ∨ pyStrip output_line = [] then
    (data_buffer, stack)
  else
    let indent := pyIndent output_line
    let line := pyStrip output_line
    match matchKeyValue line with
    | none => (data_buffer, stack)
    | some (key, rest) =>
      let value := pyStrip rest
      let stack1 := stack.dropWhile (fun f => decide (f.indent ≥ indent))
      let full_key :=
        match stack1 with
        | [] => key
        | parent :: _ => parent.path ++ '.' :: key
      if value = [] then
        (data_buffer, ⟨indent, full_key⟩ :: stack1)
      else
        (assocSet data_buffer full_key (coerce value), stack1)

/-- Python `key.split('.')` for a single-character separator: always a
non-empty list of (possibly empty) segments. -/
def pySplitDot : PyStr → List PyStr
  | [] => [[]]
  | c :: rest =>
    if c = '.' then [] :: pySplitDot rest
    else
      match pySplitDot rest with
      | [] => [[c]]
      | p :: ps => (c :: p) :: ps

/-- A node of the nested result dict built by `flatten_to_nested_dict`:
either a stored scalar or a nested dict. -/
inductive PyVal where
  | scalar : ScalarValue → PyVal
  | dict : List (PyStr × PyVal) → PyVal

/-- The nested record: a Python dict from segment to value. -/
abbrev NestedRecord := List (PyStr × PyVal)

/-- The body of the `for key, value` loop of `flatten_to_nested_dict`
(lines 134-142 of the source) for one `(key, value)` pair, with
`parts = key.split('.')`: walk/create interior nodes for all but the
last segment, then assign at the last segment.  `none` models the
`TypeError` Python raises as soon as the walk reaches a scalar —
subscripting or item-assigning an `int`/`float`/`str` raises (for a
`str`, `part not in current` is a substring test, but the subsequent
indexing or item assignment still raises).  The empty-parts case is
unreachable (`split` never returns an empty list). -/
def setPath (d : NestedRecord) : List PyStr → ScalarValue → Option NestedRecord
  | [], _ => none
  | [last], v => some (assocSet d last (.scalar v))
  | part :: seg :: more, v =>
    match assocLookup d part with
    | none =>
      match setPath [] (seg :: more) v with
      | none => none
      | some sub => some (assocSet d part (.dict sub))
    | some (.dict m) =>
      match setPath m (seg :: more) v with
      | none => none
      | some m' => some (assocSet d part (.dict m'))
    | some (.scalar _) => none

/-- The `for key, value in flat_dict.items()` loop of
`flatten_to_nested_dict`, in insertion order; `none` propagates the
`TypeError` out of the function. -/
def flattenAux : NestedRecord → FlatRecord → Option NestedRecord
  | acc, [] => some acc
  | acc, (k, v) :: rest =>
    match setPath acc (pySplitDot k) v with
    | none => none
    | some acc' => flattenAux acc' rest

/-- `flatten_to_nested_dict(flat_dict)`, lines 129-144 of the source.
`none` models the `TypeError` raised when a dotted key revisits a path
already holding a scalar. -/
def flatten_to_nested_dict (flat : FlatRecord) : Option NestedRecord :=
  flattenAux [] flat

/-- The per-stream mutable state of the read loop of
`ros2_topic_generator` (lines 207-211 of the source): `data_buffer`,
`parser_state` and `messages_pending`. -/
structure GenState where
  buffer : FlatRecord
  stack : IndentStack
  pending : List NestedRecord

/-- Lines 239-253 of the source: processing of one decoded, rstripped
line inside the read loop.  A boundary line flushes a non-empty buffer
through `flatten_to_nested_dict` into `messages_pending` and resets
`data_buffer` and `parser_state`; any other line goes to
`parse_ros2_generic_output`.  `Except.error st` models the `TypeError`
escaping from `flatten_to_nested_dict`: it aborts the cycle before the
reset at lines 249-250 runs, so the state at the raise point — carried
by the error — is the unchanged input state. -/
def feedLine (st : GenState) (line : PyStr) : Except GenState GenState :=
  if pyStrip line = threeDashes then
    if st.buffer ≠ [] then
      match flatten_to_nested_dict st.buffer with
      | none => .error st
      | some nested => .ok ⟨[], [], st.pending ++ [nested]⟩
    else .ok ⟨[], [], st.pending⟩
  else
    let r := parse_ros2_generic_output line st.buffer st.stack
    .ok ⟨r.1, r.2, st.pending⟩

/-- Feeding the lines read during one cycle, in order; an exception
aborts the rest of the cycle. -/
def feedLines : GenState → List PyStr → Except GenState GenState
  | st, [] => .ok st
  | st, l :: rest =>
    match feedLine st l with
    | .error e => .error e
    | .ok st' => feedLines st' rest

/-- Lines 262-285 of the source: after the burst of reads,
`if messages_pending:` take `messages_pending[-1]`, emit it, and clear
the list; an empty list emits nothing. -/
def drainPending (p : List NestedRecord) :
    Option NestedRecord × List NestedRecord :=
  match p with
  | [] => (none, [])
  | _ => (p.getLast?, [])

/-- One read cycle of the `Active` state: feed the lines obtained in
the burst, then drain the pending list; the emission (if any) is the
record the consumer receives for this cycle. -/
def runCycle (st : GenState) (lines : List PyStr) :
    Except GenState (Option NestedRecord × GenState) :=
  match feedLines st lines with
  | .error e => .error e
  | .ok st' =>
    let d := drainPending st'.pending
    .ok (d.1, { st' with pending := d.2 })

/-- The adjacency relation of the indent-stack invariant: the frame `f`
sits directly above `g`, opened at a strictly larger indent, and its
dotted path extends `g`'s path by a dot and a further segment. -/
def frameStep (f g : Frame) : Prop :=
  g.indent < f.indent ∧ ∃ t, f.path = g.path ++ '.' :: t

/-- The stack ordering invariant (§3 of the spec): walking the stack
from the top (list head) down, indents strictly decrease and each
frame's path extends the path of the frame below it. -/
def stackInv : IndentStack → Prop
  | [] => True
  | [_] => True
  | f :: g :: rest => frameStep f g ∧ stackInv (g :: rest)

/-- Follows the wording of claim C7 (not the source): content matches
`identifier ":" rest` with the identifier *immediately* followed by the
colon.  Declared only to compare the claim's grammar with the source
regex, which permits whitespace between identifier and colon. -/
def claimGrammarMatch (line : PyStr) : Bool :=
  match line with
  | [] => false
  | c :: rest =>
    isIdentStart c &&
      (match rest.dropWhile isIdentChar with
       | ':' :: _ => true
       | [] => false
       | _ :: _ => false)

/-! ### Helper lemmas -/

/-- Draining a list with a last element yields that element and clears
the list. -/
theorem drainPending_concat (l : List NestedRecord) (x : NestedRecord) :
    drainPending (l ++ [x]) = (some x, []) := by
  cases l with
  | nil => rfl
  | cons a t =>
    show (((a :: t) ++ [x]).getLast?, ([] : List NestedRecord)) = (some x, [])
    rw [List.getLast?_append_cons]
    rfl

/-- `feedLine` never removes records from the pending list: it leaves
it unchanged or appends one record. -/
theorem feedLine_pending (st : GenState) (l : PyStr) (st' : GenState)
    (h : feedLine st l = .ok st') :
    st'.pending = st.pending ∨ ∃ n, st'.pending = st.pending ++ [n] := by
  unfold feedLine at h
  split at h
  · split at h
    · split at h
      · cases h
      · cases h
        exact Or.inr ⟨_, rfl⟩
    · cases h
      exact Or.inl rfl
  · cases h
    exact Or.inl rfl

/-- `feedLines` only appends to the pending list. -/
theorem feedLines_pending (lines : List PyStr) (st st' : GenState)
    (h : feedLines st lines = .ok st') :
    ∃ new, st'.pending = st.pending ++ new := by
  induction lines generalizing st with
  | nil =>
    cases h
    exact ⟨[], by simp⟩
  | cons l rest ih =>
    unfold feedLines at h
    cases hf : feedLine st l with
    | error e => rw [hf] at h; cases h
    | ok st1 =>
      rw [hf] at h
      obtain ⟨new1, hnew1⟩ := ih st1 h
      rcases feedLine_pending st l st1 hf with h1 | ⟨n, h1⟩
      · exact ⟨new1, by rw [hnew1, h1]⟩
      · exact ⟨[n] ++ new1, by rw [hnew1, h1, List.append_assoc]⟩

/-- An invariant stack stays invariant after dropping its top frame. -/
theorem stackInv_tail {f : Frame} {rest : IndentStack} (h : stackInv (f :: rest)) :
    stackInv rest := by
  cases rest with
  | nil => trivial
  | cons g t => exact h.2

/-- Popping frames (a `dropWhile`) preserves the stack invariant. -/
theorem stackInv_dropWhile (p : Frame → Bool) :
    ∀ s : IndentStack, stackInv s → stackInv (s.dropWhile p)
  | [], h => h
  | f :: rest, h => by
    rw [List.dropWhile]
    split
    · exact stackInv_dropWhile p rest (stackInv_tail h)
    · exact h

/-- The first frame surviving a `dropWhile` fails the drop predicate. -/
theorem dropWhile_head_false (p : Frame → Bool) :
    ∀ (s : IndentStack) (g : Frame) (t : IndentStack),
      s.dropWhile p = g :: t → p g = false
  | [], g, t, h => by cases h
  | f :: rest, g, t, h => by
    rw [List.dropWhile] at h
    split at h
    · exact dropWhile_head_false p rest g t h
    · rename_i hc
      cases h
      simpa using hc

/-- One parser step preserves the stack ordering invariant. -/
theorem parse_stackInv (line : PyStr) (b : FlatRecord) (s : IndentStack)
    (h : stackInv s) :
    stackInv (parse_ros2_generic_output line b s).2 := by
  unfold parse_ros2_generic_output
  split
  · exact h
  · cases hm : matchKeyValue (pyStrip line) with
    | none => simpa [hm] using h
    | some kv =>
      obtain ⟨key, rest⟩ := kv
      simp only [hm]
      split
      · rename_i hval
        have hdrop := stackInv_dropWhile
          (fun f => decide (f.indent ≥ pyIndent line)) s h
        cases hs1 : s.dropWhile (fun f => decide (f.indent ≥ pyIndent line)) with
        | nil => simp [hs1]; trivial
        | cons g t =>
          rw [hs1] at hdrop
          have hg := dropWhile_head_false _ s g t hs1
          simp only [hs1]
          refine ⟨⟨?_, ⟨key, rfl⟩⟩, hdrop⟩
          simp at hg
          show g.indent < pyIndent line
          omega
      · exact stackInv_dropWhile _ s h

/-- Folding the parser over a line sequence preserves the invariant. -/
theorem parse_foldl_stackInv :
    ∀ (lines : List PyStr) (b : FlatRecord) (s : IndentStack), stackInv s →
      stackInv ((lines.foldl
        (fun p l => parse_ros2_generic_output l p.1 p.2) (b, s)).2)
  | [], _, _, h => h
  | l :: rest, b, s, h => by
    rw [List.foldl_cons]
    exact parse_foldl_stackInv rest _ _ (parse_stackInv l b s h)

/-- `assocSet` never removes a key: any key present before an update is
still present afterwards. -/
theorem assocLookup_assocSet_isSome {β : Type} (d : List (PyStr × β))
    (k : PyStr) (v : β) (k' : PyStr)
    (h : (assocLookup d k').isSome = true) :
    (assocLookup (assocSet d k v) k').isSome = true := by
  induction d with
  | nil => simp [assocLookup] at h
  | cons p rest ih =>
    obtain ⟨k0, v0⟩ := p
    by_cases hk : k0 = k
    · subst hk
      simp only [assocSet, if_pos rfl, assocLookup] at h ⊢
      split at h <;> simp_all
    · simp only [assocSet, if_neg hk, assocLookup] at h ⊢
      split at h <;> simp_all

/-! ### Claim theorems -/

/-- Claim C1, counterexample.  The claim asserts that
`flatten_to_nested_dict` is total and recovers a leaf-then-parent
collision by last-write-wins.  On the claim's own example — the keys
`a` and `a.b` in that order — the walk reaches the scalar stored at
`a` and Python raises `TypeError` (modelled by `none`): the build does
not terminate normally and nothing is overwritten. -/
theorem c1_counterexample :
    flatten_to_nested_dict
      [("a".toList, .int 1), ("a.b".toList, .int 2)] = none := by rfl

/-- Claim C1, amended.  `flatten_to_nested_dict` is pure but not total:
when a path is first assigned as a leaf and later revisited as a parent
(keys `a` then `a.b`), the build raises a `TypeError` (`none`) instead
of overwriting; in the opposite direction — a parent path later
reassigned as a leaf (keys `a.b` then `a`) — the later write does
silently overwrite the subtree, last-write-wins. -/
theorem c1_collision_behaviour (v1 v2 : ScalarValue) :
    flatten_to_nested_dict [("a".toList, v1), ("a.b".toList, v2)] = none ∧
    flatten_to_nested_dict [("a.b".toList, v1), ("a".toList, v2)] =
      some [("a".toList, .scalar v2)] := by
  constructor <;> rfl

/-- Claim C2, counterexample.  The claim asserts that when the integer
parse of a dot-free, `e`-free token fails, a floating-point parse is
attempted.  The token `nan` has no `.` and no `e`, its integer parse
fails, and Python's float parse would succeed — yet the code returns it
as a String: the `except` arm is reached directly from `int`, and
`float` is never attempted on that branch. -/
theorem c2_counterexample :
    coerce "nan".toList = .str "nan".toList ∧
    hasDotOrE "nan".toList = false ∧
    pyIntParse "nan".toList = none ∧
    pyFloatParses "nan".toList = true :=
  ⟨rfl, rfl, rfl, rfl⟩

/-- Claim C2, amended.  Coercion returns Integer exactly when the token
has no `.` and no case-insensitive `e` and the integer parse succeeds;
when the token has a `.` or an `e` it attempts the floating-point parse
and returns Float on success; in all remaining cases — a failing
integer parse (with no float attempt) or a failing float parse — it
returns the token unchanged as a String.  Coercion is total: every
token yields one of the three cases. -/
theorem c2_coercion_cases (v : PyStr) :
    (∀ n, coerce v = .int n ↔ hasDotOrE v = false ∧ pyIntParse v = some n) ∧
    (∀ t, coerce v = .float t ↔
      hasDotOrE v = true ∧ pyFloatParses v = true ∧ t = v) ∧
    (coerce v = .str v ↔
      (hasDotOrE v = false ∧ pyIntParse v = none) ∨
      (hasDotOrE v = true ∧ pyFloatParses v = false)) := by
  unfold coerce
  cases h : hasDotOrE v
  · cases hp : pyIntParse v <;> simp [h, hp]
  · cases hf : pyFloatParses v <;> simp [h, hf, eq_comm]

/-- Claim C3: within one read cycle the pending list only grows by the
completed frames, in order; the drain at the end of the cycle emits
nothing when no frame completed, and exactly the last completed frame's
record — discarding all earlier ones — otherwise. -/
theorem c3_freshest_record_wins :
    (∀ st lines st', feedLines st lines = .ok st' →
      ∃ new, st'.pending = st.pending ++ new) ∧
    (∀ st lines st', st.pending = [] → feedLines st lines = .ok st' →
      (st'.pending = [] → runCycle st lines = .ok (none, st')) ∧
      (∀ l x, st'.pending = l ++ [x] →
        runCycle st lines = .ok (some x, { st' with pending := [] }))) := by
  refine ⟨fun st lines st' h => feedLines_pending lines st st' h,
    fun st lines st' hp h => ⟨fun hnil => ?_, fun l x hlx => ?_⟩⟩
  · unfold runCycle
    rw [h]
    obtain ⟨b, s, p⟩ := st'
    simp only at hnil
    subst hnil
    rfl
  · unfold runCycle
    rw [h]
    simp only [hlx, drainPending_concat]

/-- Witness for C3: a cycle producing two complete frames emits exactly
one record, the second frame's nested form, and clears the backlog. -/
theorem c3_freshest_record_wins_witness :
    runCycle ⟨[], [], []⟩
      ["x: 1".toList, "---".toList, "x: 2".toList, "---".toList] =
      .ok (some [("x".toList, .scalar (.int 2))], ⟨[], [], []⟩) := by
  have h := (c3_freshest_record_wins.2 ⟨[], [], []⟩
    ["x: 1".toList, "---".toList, "x: 2".toList, "---".toList]
    ⟨[], [], [[("x".toList, .scalar (.int 1))], [("x".toList, .scalar (.int 2))]]⟩
    rfl (by rfl)).2
  exact h [[("x".toList, .scalar (.int 1))]] [("x".toList, .scalar (.int 2))] rfl

/-- Claim C4, counterexample.  The claim asserts that a boundary line on
a non-empty FlatRecord always hands one completed record to the
coalescer and always resets the parser state.  The line sequence
`a: 1`, `a:`, `  b: 2` — all accepted by the parser — yields the
buffer with keys `a` and `a.b`; on the following `---` the tree build
raises `TypeError`, so no record is handed over and the state is NOT
reset (the exception skips the reset and is swallowed by the read
loop's error handler). -/
theorem c4_counterexample :
    feedLines ⟨[], [], []⟩ ["a: 1".toList, "a:".toList, "  b: 2".toList] =
      .ok ⟨[("a".toList, .int 1), ("a.b".toList, .int 2)],
        [⟨0, "a".toList⟩], []⟩ ∧
    feedLine ⟨[("a".toList, .int 1), ("a.b".toList, .int 2)],
        [⟨0, "a".toList⟩], []⟩ "---".toList =
      .error ⟨[("a".toList, .int 1), ("a.b".toList, .int 2)],
        [⟨0, "a".toList⟩], []⟩ :=
  ⟨rfl, rfl⟩

/-- Claim C4, amended.  On a line trimming to `---`: an empty
FlatRecord produces no record and the state is reset; a non-empty
FlatRecord whose tree build succeeds hands exactly that one record to
the coalescer and the state is reset; a non-empty FlatRecord whose tree
build raises hands nothing over and leaves the whole state unchanged. -/
theorem c4_boundary_flush (st : GenState) (line : PyStr)
    (hb : pyStrip line = threeDashes) :
    (st.buffer = [] → feedLine st line = .ok ⟨[], [], st.pending⟩) ∧
    (∀ n, st.buffer ≠ [] → flatten_to_nested_dict st.buffer = some n →
      feedLine st line = .ok ⟨[], [], st.pending ++ [n]⟩) ∧
    (st.buffer ≠ [] → flatten_to_nested_dict st.buffer = none →
      feedLine st line = .error st) := by
  refine ⟨fun he => ?_, fun n hne hf => ?_, fun hne hf => ?_⟩ <;>
    simp only [feedLine, hb, if_pos rfl] <;> simp_all

/-- Witness for C4: a boundary flushing the single-key buffer `x: 3`
emits its nested form and resets the parser state. -/
theorem c4_boundary_flush_witness :
    feedLine ⟨[("x".toList, .int 3)], [], []⟩ "---".toList =
      .ok ⟨[], [], [[("x".toList, .scalar (.int 3))]]⟩ :=
  (c4_boundary_flush ⟨[("x".toList, .int 3)], [], []⟩ "---".toList rfl).2.1
    [("x".toList, .scalar (.int 3))] (by simp) rfl

/-- Claim C6: starting from the empty stack, after feeding any sequence
of lines through the parser the frames of the indent stack are strictly
increasing in indent from bottom to top (the head of the modelled list
is the top, the most deeply nested open frame), and each frame's dotted
path extends the path of the frame below it by a dot and a further
segment. -/
theorem c6_stack_ordering_invariant (lines : List PyStr) :
    stackInv ((lines.foldl
      (fun p l => parse_ros2_generic_output l p.1 p.2)
      (([], []) : FlatRecord × IndentStack)).2) :=
  parse_foldl_stackInv lines [] [] trivial

/-- Claim C7, counterexample.  The claim asserts that a trimmed line in
which the identifier is not immediately followed by the colon is
ignored.  The line `a : 1` fails that grammar, yet the source regex
allows whitespace before the colon (`\s*:`), matches it, and stores
`a = 1` — the state changes. -/
theorem c7_counterexample :
    claimGrammarMatch (pyStrip "a : 1".toList) = false ∧
    parse_ros2_generic_output "a : 1".toList [] [] =
      ([("a".toList, .int 1)], []) :=
  ⟨rfl, rfl⟩

/-- Claim C7, amended.  A line whose trimmed content does not match the
source grammar — identifier, optional whitespace, colon, rest — leaves
the entire parser state unchanged (no FlatRecord entry, no stack
change) and raises no error. -/
theorem c7_nonmatching_ignored (line : PyStr) (b : FlatRecord)
    (s : IndentStack) (h : matchKeyValue (pyStrip line) = none) :
    parse_ros2_generic_output line b s = (b, s) := by
  unfold parse_ros2_generic_output
  split
  · rfl
  · simp only [h]

/-- Witness for C7: the malformed line of §8 of the spec is dropped
with no state change. -/
theorem c7_nonmatching_ignored_witness :
    parse_ros2_generic_output "??? malformed".toList
      [("a".toList, .int 1)] [⟨0, "a".toList⟩] =
      ([("a".toList, .int 1)], [⟨0, "a".toList⟩]) :=
  c7_nonmatching_ignored "??? malformed".toList
    [("a".toList, .int 1)] [⟨0, "a".toList⟩] rfl

/-- Claim C8, counterexample.  The claim asserts the parser's indent is
the count of leading space characters, tabs not counting.  On a
tab-indented line the source's `len(line) - len(line.lstrip())` counts
the tab: the indent is 1 where the leading-space count is 0, and the
parser observably files the key under the still-open frame `a`. -/
theorem c8_counterexample :
    pyIndent ('\t' :: "b: 1".toList) = 1 ∧
    ((('\t' :: "b: 1".toList)).takeWhile (fun c => c = ' ')).length = 0 ∧
    parse_ros2_generic_output ('\t' :: "b: 1".toList) [] [⟨0, "a".toList⟩] =
      ([("a.b".toList, .int 1)], [⟨0, "a".toList⟩]) :=
  ⟨rfl, rfl, rfl⟩

/-- Claim C8, amended.  For every input line the indent used by the
parser equals the count of leading *whitespace* characters (in the
sense of Python's `str.lstrip`: spaces, tabs, and the other whitespace
characters), not the count of leading spaces only. -/
theorem c8_indent_is_leading_whitespace (s : PyStr) :
    pyIndent s = (s.takeWhile isPySpace).length := by
  have h := List.takeWhile_append_dropWhile (p := isPySpace) (l := s)
  have hlen : (s.takeWhile isPySpace).length
      + (s.dropWhile isPySpace).length = s.length := by
    conv_rhs => rw [← h]
    exact (List.length_append _ _).symm
  unfold pyIndent pyLstrip
  omega

/-- Claim C10: the per-line parser feed is total (the Lean embedding is
a total function, mirroring that every partial operation in the Python
body is guarded) and its only effects are: the FlatRecord is unchanged
or updated by a single key assignment; the indent stack is unchanged,
popped to some indent level, or popped and then pushed one frame; and
no key ever present in the FlatRecord is deleted. -/
theorem c10_feed_effects (line : PyStr) (b : FlatRecord) (s : IndentStack) :
    ((parse_ros2_generic_output line b s).1 = b ∨
      ∃ k v, (parse_ros2_generic_output line b s).1 = assocSet b k v) ∧
    ((parse_ros2_generic_output line b s).2 = s ∨
      ∃ i, (parse_ros2_generic_output line b s).2 =
          s.dropWhile (fun f => decide (f.indent ≥ i)) ∨
        ∃ fr, (parse_ros2_generic_output line b s).2 =
          fr :: s.dropWhile (fun f => decide (f.indent ≥ i))) ∧
    (∀ k, (assocLookup b k).isSome = true →
      (assocLookup (parse_ros2_generic_output line b s).1 k).isSome = true) := by
  unfold parse_ros2_generic_output
  split
  · exact ⟨Or.inl rfl, Or.inl rfl, fun k h => h⟩
  · cases hm : matchKeyValue (pyStrip line) with
    | none =>
      simp only [hm]
      refine ⟨Or.inl ?_, Or.inl ?_, fun k h => h⟩ <;> trivial
    | some kv =>
      obtain ⟨key, rest⟩ := kv
      simp only [hm]
      split
      · refine ⟨Or.inl ?_, Or.inr ⟨pyIndent line, Or.inr ⟨_, rfl⟩⟩,
          fun k h => h⟩
        trivial
      · exact ⟨Or.inr ⟨_, _, rfl⟩, Or.inr ⟨pyIndent line, Or.inl rfl⟩,
          fun k h => assocLookup_assocSet_isSome b _ _ k h⟩

/-- Witness for C10: feeding `b: 2` over a buffer already holding `a`
keeps the key `a` present. -/
theorem c10_feed_effects_witness :
    (assocLookup
      (parse_ros2_generic_output "b: 2".toList
        [("a".toList, .int 1)] []).1 "a".toList).isSome = true :=
  (c10_feed_effects "b: 2".toList [("a".toList, .int 1)] []).2.2
    "a".toList rfl

theorem dropWhile_length_le (p : Char → Bool) :
    ∀ l : PyStr, (l.dropWhile p).length ≤ l.length
  | [] => le_refl _
  | c :: t => by
    rw [List.dropWhile]
    split
    · exact le_trans (dropWhile_length_le p t) (Nat.le_succ _)
    · exact le_refl _

theorem dropWhile_eq_self_head (p : Char → Bool) (c : Char) (t : PyStr)
    (h : (c :: t).dropWhile p = c :: t) : p c = false := by
  by_cases hp : p c = true
  · rw [List.dropWhile_cons_of_pos hp] at h
    have hle := dropWhile_length_le p t
    have hlen := congrArg List.length h
    rw [List.length_cons] at hlen
    omega
  · simpa using hp

theorem dropWhile_eq_self_of_length (p : Char → Bool) :
    ∀ l : PyStr, (l.dropWhile p).length = l.length → l.dropWhile p = l
  | [], _ => rfl
  | c :: t, h => by
    by_cases hp : p c = true
    · exfalso
      rw [List.dropWhile_cons_of_pos hp] at h
      have hle := dropWhile_length_le p t
      rw [List.length_cons] at h
      omega
    · exact List.dropWhile_cons_of_neg (by simpa using hp)

theorem pyRstrip_length_le (s : PyStr) : (pyRstrip s).length ≤ s.length := by
  unfold pyRstrip
  rw [List.length_reverse]
  calc (s.reverse.dropWhile isPySpace).length
      ≤ s.reverse.length := dropWhile_length_le _ _
    _ = s.length := List.length_reverse s

theorem pyLstrip_eq_self_of_strip (v : PyStr) (h : pyStrip v = v) :
    pyLstrip v = v := by
  have h2 : (pyLstrip v).length ≤ v.length := dropWhile_length_le _ _
  have h1 : (pyRstrip (pyLstrip v)).length ≤ (pyLstrip v).length :=
    pyRstrip_length_le _
  have h3 : (pyRstrip (pyLstrip v)).length = v.length := by
    rw [show pyRstrip (pyLstrip v) = pyStrip v from rfl, h]
  have h4 : (pyLstrip v).length = v.length := by omega
  exact dropWhile_eq_self_of_length _ _ h4

theorem pyRstrip_eq_self_of_strip (v : PyStr) (h : pyStrip v = v) :
    pyRstrip v = v := by
  have hl := pyLstrip_eq_self_of_strip v h
  unfold pyStrip at h
  rw [hl] at h
  exact h

theorem last_not_space_of_rstrip (v : PyStr) (c : Char) (h : pyRstrip v = v)
    (hl : v.getLast? = some c) : isPySpace c = false := by
  unfold pyRstrip at h
  have hrev : v.reverse.dropWhile isPySpace = v.reverse := by
    have h2 := congrArg List.reverse h
    rwa [List.reverse_reverse] at h2
  cases hr : v.reverse with
  | nil =>
    exfalso
    have hv : v = [] := by
      have := congrArg List.reverse hr
      rwa [List.reverse_reverse] at this
    rw [hv] at hl
    cases hl
  | cons d r =>
    have hd : d = c := by
      have h2 : v.reverse.head? = some c := by
        rw [List.head?_reverse]; exact hl
      rw [hr] at h2
      injection h2
    rw [hr] at hrev
    exact hd ▸ dropWhile_eq_self_head _ d r hrev

theorem pyRstrip_eq_self_of_last (v : PyStr) (c : Char) (hl : v.getLast? = some c)
    (hc : isPySpace c = false) : pyRstrip v = v := by
  unfold pyRstrip
  cases hr : v.reverse with
  | nil =>
    have hv : v = [] := by
      have := congrArg List.reverse hr
      rwa [List.reverse_reverse] at this
    rw [hv]
    rfl
  | cons d r =>
    have hd : d = c := by
      have h2 : v.reverse.head? = some c := by
        rw [List.head?_reverse]; exact hl
      rw [hr] at h2
      injection h2
    rw [List.dropWhile_cons_of_neg (by rw [hd, hc]; simp), ← hr,
      List.reverse_reverse]

theorem takeWhile_append_all (p : Char → Bool) :
    ∀ (xs : PyStr) (y : Char) (ys : PyStr),
      (∀ x ∈ xs, p x = true) → p y = false →
      ((xs ++ y :: ys).takeWhile p) = xs
  | [], y, ys, _, hy => by
    simp only [List.nil_append]
    rw [List.takeWhile_cons_of_neg (by simp [hy])]
  | x :: xs, y, ys, hall, hy => by
    rw [List.cons_append,
      List.takeWhile_cons_of_pos (hall x (by simp)),
      takeWhile_append_all p xs y ys (fun z hz => hall z (by simp [hz])) hy]

theorem dropWhile_append_all (p : Char → Bool) :
    ∀ (xs : PyStr) (y : Char) (ys : PyStr),
      (∀ x ∈ xs, p x = true) → p y = false →
      ((xs ++ y :: ys).dropWhile p) = y :: ys
  | [], y, ys, _, hy => by
    simp only [List.nil_append]
    rw [List.dropWhile_cons_of_neg (by simp [hy])]
  | x :: xs, y, ys, hall, hy => by
    rw [List.cons_append,
      List.dropWhile_cons_of_pos (hall x (by simp)),
      dropWhile_append_all p xs y ys (fun z hz => hall z (by simp [hz])) hy]

theorem isIdentStart_not_space (c : Char) (h : isIdentStart c = true) :
    isPySpace c = false := by
  cases hc : isPySpace c
  · rfl
  · exfalso
    have hc6 : c = ' ' ∨ c = '\t' ∨ c = '\n' ∨ c = '\r' ∨ c = '\x0b' ∨
        c = '\x0c' := by
      unfold isPySpace at hc
      simp only [Bool.or_eq_true, decide_eq_true_eq] at hc
      tauto
    rcases hc6 with h1 | h1 | h1 | h1 | h1 | h1 <;> subst h1 <;>
      exact absurd h (by decide)

theorem isIdentStart_ne_dash (c : Char) (h : isIdentStart c = true) :
    c ≠ '-' := by
  intro he
  subst he
  exact absurd h (by decide)

theorem isIdentChar_ne_colon (c : Char) (h : isIdentChar c = true) :
    c ≠ ':' := by
  intro he
  subst he
  exact absurd h (by decide)

theorem isIdentChar_ne_dot (c : Char) (h : isIdentChar c = true) :
    c ≠ '.' := by
  intro he
  subst he
  exact absurd h (by decide)

theorem isIdentStart_ne_dot (c : Char) (h : isIdentStart c = true) :
    c ≠ '.' := by
  intro he
  subst he
  exact absurd h (by decide)

theorem matchKeyValue_well_formed (c0 : Char) (ks v : PyStr)
    (hc0 : isIdentStart c0 = true) (hks : ∀ x ∈ ks, isIdentChar x = true)
    (hv : pyLstrip v = v) :
    matchKeyValue ((c0 :: ks) ++ ':' :: ' ' :: v) = some (c0 :: ks, v) := by
  unfold matchKeyValue
  rw [List.cons_append]
  simp only [hc0, if_pos]
  rw [takeWhile_append_all isIdentChar ks ':' (' ' :: v) hks (by decide),
    dropWhile_append_all isIdentChar ks ':' (' ' :: v) hks (by decide),
    List.dropWhile_cons_of_neg (by decide)]
  have hsp : (' ' :: v).dropWhile isPySpace = v := by
    rw [List.dropWhile_cons_of_pos (by decide)]
    exact hv
  show some (c0 :: ks, (' ' :: v).dropWhile isPySpace) = some (c0 :: ks, v)
  rw [hsp]

theorem pyStrip_flat_line (c0 : Char) (ks v : PyStr)
    (hc0 : isIdentStart c0 = true) (hv0 : v ≠ []) (hv : pyStrip v = v) :
    pyStrip ((c0 :: ks) ++ ':' :: ' ' :: v) = (c0 :: ks) ++ ':' :: ' ' :: v := by
  obtain ⟨d, hd⟩ : ∃ d, v.getLast? = some d := by
    cases hg : v.getLast? with
    | none => exact absurd (List.getLast?_eq_none_iff.mp hg) hv0
    | some d => exact ⟨d, rfl⟩
  have hdns : isPySpace d = false :=
    last_not_space_of_rstrip v d (pyRstrip_eq_self_of_strip v hv) hd
  have hlast : ((c0 :: ks) ++ ':' :: ' ' :: v).getLast? = some d := by
    rw [List.getLast?_append_of_ne_nil _ (by simp)]
    show ((':' :: [' ']) ++ v).getLast? = some d
    rw [List.getLast?_append_of_ne_nil _ hv0]
    exact hd
  have hrs : pyRstrip ((c0 :: ks) ++ ':' :: ' ' :: v) =
      (c0 :: ks) ++ ':' :: ' ' :: v :=
    pyRstrip_eq_self_of_last _ d hlast hdns
  have hls : pyLstrip ((c0 :: ks) ++ ':' :: ' ' :: v) =
      (c0 :: ks) ++ ':' :: ' ' :: v := by
    rw [List.cons_append]
    exact List.dropWhile_cons_of_neg (by simp [isIdentStart_not_space c0 hc0])
  unfold pyStrip
  rw [hls, hrs]

theorem parse_flat_line (k v : PyStr) (b : FlatRecord)
    (hk : isIdent k = true) (hv0 : v ≠ []) (hv : pyStrip v = v) :
    parse_ros2_generic_output (k ++ ':' :: ' ' :: v) b [] =
      (assocSet b k (coerce v), []) := by
  obtain ⟨c0, ks, rfl⟩ : ∃ c0 ks, k = c0 :: ks := by
    cases hk1 : k with
    | nil => rw [hk1] at hk; exact absurd hk (by simp [isIdent])
    | cons a t => exact ⟨a, t, rfl⟩
  have hki : isIdentStart c0 = true ∧ ∀ x ∈ ks, isIdentChar x = true := by
    simp [isIdent] at hk
    exact ⟨hk.1, fun x hx => hk.2 x hx⟩
  have hc0 := hki.1
  have hks := hki.2
  have hstrip := pyStrip_flat_line c0 ks v hc0 hv0 hv
  have hmatch := matchKeyValue_well_formed c0 ks v hc0 hks
    (pyLstrip_eq_self_of_strip v hv)
  have hcond : ¬((c0 :: ks) ++ ':' :: ' ' :: v = [] ∨
      pyStrip ((c0 :: ks) ++ ':' :: ' ' :: v) = threeDashes ∨
      pyStrip ((c0 :: ks) ++ ':' :: ' ' :: v) = []) := by
    rw [hstrip]
    push_neg
    refine ⟨by simp, ?_, by simp⟩
    intro he
    rw [List.cons_append] at he
    have hc : c0 = '-' := by
      have := congrArg List.head? he
      simpa [threeDashes] using this
    exact isIdentStart_ne_dash c0 hc0 hc
  unfold parse_ros2_generic_output
  rw [if_neg hcond]
  simp only [hstrip, hmatch, hv]
  rw [if_neg hv0]
  rfl

theorem feedLine_nonboundary (st : GenState) (line : PyStr)
    (hb : pyStrip line ≠ threeDashes) :
    feedLine st line =
      .ok ⟨(parse_ros2_generic_output line st.buffer st.stack).1,
        (parse_ros2_generic_output line st.buffer st.stack).2, st.pending⟩ := by
  unfold feedLine
  rw [if_neg hb]

theorem flat_line_not_boundary (k v : PyStr)
    (hk : isIdent k = true) (hv0 : v ≠ []) (hv : pyStrip v = v) :
    pyStrip (k ++ ':' :: ' ' :: v) ≠ threeDashes := by
  obtain ⟨c0, ks, rfl⟩ : ∃ c0 ks, k = c0 :: ks := by
    cases hk1 : k with
    | nil => rw [hk1] at hk; exact absurd hk (by simp [isIdent])
    | cons a t => exact ⟨a, t, rfl⟩
  have hc0 : isIdentStart c0 = true := by
    simp [isIdent] at hk
    exact hk.1
  rw [pyStrip_flat_line c0 ks v hc0 hv0 hv, List.cons_append]
  intro he
  have hc : c0 = '-' := by
    have := congrArg List.head? he
    simpa [threeDashes] using this
  exact isIdentStart_ne_dash c0 hc0 hc

theorem feedLines_flat (kvs : List (PyStr × PyStr)) :
    ∀ (b : FlatRecord) (p : List NestedRecord),
      (∀ kv ∈ kvs, isIdent kv.1 = true ∧ kv.2 ≠ [] ∧ pyStrip kv.2 = kv.2) →
      feedLines ⟨b, [], p⟩
        (kvs.map (fun kv => kv.1 ++ ':' :: ' ' :: kv.2)) =
        .ok ⟨kvs.foldl (fun acc kv => assocSet acc kv.1 (coerce kv.2)) b, [], p⟩ := by
  induction kvs with
  | nil => intro b p _; rfl
  | cons kv rest ih =>
    intro b p hwf
    obtain ⟨hk, hv0, hv⟩ := hwf kv (by simp)
    have hline := parse_flat_line kv.1 kv.2 b hk hv0 hv
    have hnb := flat_line_not_boundary kv.1 kv.2 hk hv0 hv
    rw [List.map_cons, List.foldl_cons]
    simp only [feedLines]
    rw [feedLine_nonboundary ⟨b, [], p⟩ _ hnb]
    simp only [hline]
    exact ih _ p (fun kv2 h2 => hwf kv2 (by simp [h2]))

theorem assocSet_append_of_absent {β : Type} :
    ∀ (d : List (PyStr × β)) (k : PyStr) (v : β), assocLookup d k = none →
      assocSet d k v = d ++ [(k, v)]
  | [], _, _, _ => rfl
  | (k0, v0) :: rest, k, v, h => by
    unfold assocLookup at h
    split at h
    · cases h
    · rename_i hne
      unfold assocSet
      rw [if_neg hne, assocSet_append_of_absent rest k v h]
      simp

theorem assocLookup_append_single_none {β : Type} :
    ∀ (d : List (PyStr × β)) (k1 : PyStr) (v1 : β) (k : PyStr),
      assocLookup d k = none → k1 ≠ k →
      assocLookup (d ++ [(k1, v1)]) k = none
  | [], k1, v1, k, _, hne => by
    simp only [List.nil_append]
    unfold assocLookup
    rw [if_neg hne]
    rfl
  | (k0, v0) :: rest, k1, v1, k, h, hne => by
    unfold assocLookup at h
    split at h
    · cases h
    · rename_i h0
      rw [List.cons_append]
      unfold assocLookup
      rw [if_neg h0]
      exact assocLookup_append_single_none rest k1 v1 k h hne

theorem foldl_assocSet_fresh {β : Type} (l : List (PyStr × β)) :
    ∀ acc : List (PyStr × β),
      (∀ kv ∈ l, assocLookup acc kv.1 = none) →
      (l.map Prod.fst).Nodup →
      l.foldl (fun acc kv => assocSet acc kv.1 kv.2) acc = acc ++ l := by
  induction l with
  | nil => intro acc _ _; simp
  | cons kv1 rest ih =>
    intro acc habs hnd
    obtain ⟨k1, v1⟩ := kv1
    rw [List.foldl_cons]
    have h1 : assocLookup acc k1 = none :=
      habs (k1, v1) (by exact List.mem_cons_self _ _)
    have hndc : (k1 :: rest.map Prod.fst).Nodup := hnd
    have hnd2 := List.nodup_cons.mp hndc
    have habs2 : ∀ kv ∈ rest, assocLookup (acc ++ [(k1, v1)]) kv.1 = none := by
      intro kv hkv
      refine assocLookup_append_single_none acc k1 v1 kv.1
        (habs kv (by simp [hkv])) ?_
      intro he
      exact hnd2.1 (he ▸ (List.mem_map.mpr ⟨kv, hkv, rfl⟩))
    rw [assocSet_append_of_absent acc k1 v1 h1,
      ih (acc ++ [(k1, v1)]) habs2 hnd2.2]
    simp

theorem pySplitDot_no_dot : ∀ (k : PyStr), (∀ c ∈ k, c ≠ '.') →
    pySplitDot k = [k]
  | [], _ => rfl
  | c :: rest, h => by
    unfold pySplitDot
    rw [if_neg (h c (by simp)), pySplitDot_no_dot rest (fun x hx => h x (by simp [hx]))]

theorem isIdent_no_dot (k : PyStr) (hk : isIdent k = true) :
    ∀ c ∈ k, c ≠ '.' := by
  cases k with
  | nil => intro c hc; cases hc
  | cons c0 ks =>
    simp [isIdent] at hk
    intro c hc
    rcases List.mem_cons.mp hc with rfl | hc2
    · exact isIdentStart_ne_dot c hk.1
    · exact isIdentChar_ne_dot c (hk.2 c hc2)

theorem flattenAux_dotless :
    ∀ (l : FlatRecord) (acc : NestedRecord),
      (∀ kv ∈ l, pySplitDot kv.1 = [kv.1]) →
      flattenAux acc l =
        some (l.foldl (fun acc kv => assocSet acc kv.1 (PyVal.scalar kv.2)) acc)
  | [], acc, _ => rfl
  | (k, v) :: rest, acc, h => by
    have hs : pySplitDot k = [k] := h (k, v) (by simp)
    rw [List.foldl_cons]
    show (match setPath acc (pySplitDot k) v with
          | none => none
          | some acc2 => flattenAux acc2 rest) = _
    rw [hs]
    show flattenAux (assocSet acc k (PyVal.scalar v)) rest = _
    exact flattenAux_dotless rest _ (fun kv hkv => h kv (by simp [hkv]))

theorem flatten_dotless (l : FlatRecord)
    (hdot : ∀ kv ∈ l, pySplitDot kv.1 = [kv.1])
    (hnd : (l.map Prod.fst).Nodup) :
    flatten_to_nested_dict l =
      some (l.map (fun kv => (kv.1, PyVal.scalar kv.2))) := by
  unfold flatten_to_nested_dict
  rw [flattenAux_dotless l [] hdot]
  congr 1
  have h1 : l.foldl (fun acc kv => assocSet acc kv.1 (PyVal.scalar kv.2)) [] =
      (l.map (fun kv => (kv.1, PyVal.scalar kv.2))).foldl
        (fun acc kv => assocSet acc kv.1 kv.2) [] := by
    rw [List.foldl_map]
  rw [h1, foldl_assocSet_fresh _ [] (fun kv _ => rfl)
    (by simpa [List.map_map, Function.comp] using hnd)]
  simp

theorem feedLines_append (xs ys : List PyStr) :
    ∀ st, feedLines st (xs ++ ys) =
      (match feedLines st xs with
       | Except.error e => Except.error e
       | Except.ok st2 => feedLines st2 ys : Except GenState GenState) := by
  induction xs with
  | nil => intro st; rfl
  | cons l rest ih =>
    intro st
    rw [List.cons_append]
    show (match feedLine st l with
          | Except.error e => Except.error e
          | Except.ok st2 => feedLines st2 (rest ++ ys) :
            Except GenState GenState) =
      (match (match feedLine st l with
              | Except.error e => Except.error e
              | Except.ok st2 => feedLines st2 rest :
                Except GenState GenState) with
       | Except.error e => Except.error e
       | Except.ok st2 => feedLines st2 ys)
    cases feedLine st l with
    | error e => rfl
    | ok st1 => exact ih st1

theorem feedLine_boundary_ok (b : FlatRecord) (p : List NestedRecord)
    (n : NestedRecord) (hne : b ≠ []) (hf : flatten_to_nested_dict b = some n) :
    feedLine ⟨b, [], p⟩ "---".toList = .ok ⟨[], [], p ++ [n]⟩ := by
  unfold feedLine
  simp [hf, hne]
  rfl

/-- Claim C5: feeding, from empty state, `a:` at indent 0, then `  b: 1`
and `  c: 2.5` at indent 2, then the boundary `---`, hands the coalescer
exactly one record, the nested mapping in which `a` maps to the mapping
with `b` the Integer 1 and `c` the Float 2.5; and in general, for input
consisting only of well-formed `key: value` lines at indent 0 with
distinct keys followed by a boundary, the produced NestedRecord is the
flat mapping of each key to its coerced scalar. -/
theorem c5_flat_and_nested_input :
    (feedLines ⟨[], [], []⟩
        ["a:".toList, "  b: 1".toList, "  c: 2.5".toList, "---".toList] =
      .ok ⟨[], [], [[("a".toList,
        PyVal.dict [("b".toList, .scalar (.int 1)),
          ("c".toList, .scalar (.float "2.5".toList))])]]⟩) ∧
    (∀ kvs : List (PyStr × PyStr), kvs ≠ [] →
      (kvs.map Prod.fst).Nodup →
      (∀ kv ∈ kvs, isIdent kv.1 = true ∧ kv.2 ≠ [] ∧ pyStrip kv.2 = kv.2) →
      feedLines ⟨[], [], []⟩
        (kvs.map (fun kv => kv.1 ++ ':' :: ' ' :: kv.2) ++ ["---".toList]) =
        .ok ⟨[], [],
          [kvs.map (fun kv => (kv.1, PyVal.scalar (coerce kv.2)))]⟩) := by
  constructor
  · rfl
  · intro kvs hne hnd hwf
    have hndm : (((kvs.map (fun kv => (kv.1, coerce kv.2))).map Prod.fst)).Nodup := by
      rw [List.map_map]
      exact hnd
    have hbuf : kvs.foldl (fun acc kv => assocSet acc kv.1 (coerce kv.2)) [] =
        kvs.map (fun kv => (kv.1, coerce kv.2)) := by
      have h1 : kvs.foldl (fun acc kv => assocSet acc kv.1 (coerce kv.2)) [] =
          (kvs.map (fun kv => (kv.1, coerce kv.2))).foldl
            (fun acc kv => assocSet acc kv.1 kv.2) [] := by
        rw [List.foldl_map]
      rw [h1, foldl_assocSet_fresh _ [] (fun kv _ => rfl) hndm]
      simp
    have hdot : ∀ kv ∈ kvs.map (fun kv => (kv.1, coerce kv.2)),
        pySplitDot kv.1 = [kv.1] := by
      intro kv hkv
      obtain ⟨kv0, hkv0, rfl⟩ := List.mem_map.mp hkv
      exact pySplitDot_no_dot kv0.1 (isIdent_no_dot kv0.1 (hwf kv0 hkv0).1)
    have hmne : kvs.map (fun kv => (kv.1, coerce kv.2)) ≠ [] := by
      intro h0
      exact hne (List.map_eq_nil_iff.mp h0)
    have hflat := flatten_dotless (kvs.map (fun kv => (kv.1, coerce kv.2)))
      hdot hndm
    have hfl := feedLine_boundary_ok (kvs.map (fun kv => (kv.1, coerce kv.2)))
      [] _ hmne hflat
    rw [feedLines_append, feedLines_flat kvs [] [] hwf, hbuf]
    show feedLines ⟨kvs.map (fun kv => (kv.1, coerce kv.2)), [], []⟩
      ["---".toList] = _
    simp only [feedLines, hfl]
    rw [List.map_map]
    rfl

/-- Witness for C5: the lines `x: 7` and `y: abc` followed by `---`
produce the single record mapping `x` to Integer 7 and `y` to the
String `abc`. -/
theorem c5_flat_and_nested_input_witness :
    feedLines ⟨[], [], []⟩
      ([("x".toList, "7".toList), ("y".toList, "abc".toList)].map
        (fun kv => kv.1 ++ ':' :: ' ' :: kv.2) ++ ["---".toList]) =
      .ok ⟨[], [], [[("x".toList, PyVal.scalar (.int 7)),
        ("y".toList, PyVal.scalar (.str "abc".toList))]]⟩ := by
  have h := c5_flat_and_nested_input.2
    [("x".toList, "7".toList), ("y".toList, "abc".toList)]
    (by decide) (by decide) (by decide)
  exact h
